import Mathlib

/-!
Verification of the IndexedDB abstraction layer and the priority task queue
scheduler of the Preact-Missing-Hooks repository, as a shallow embedding.

Sources embedded here:
- the connection registry (openDB) of src/indexedDB/openDB.ts, with its
  module-level connectionCache map;
- the schema-upgrade handler inside _openDB (onupgradeneeded);
- the table controller operations update and bulkInsert of
  src/indexedDB/tableController.ts, over a model of a single-key-path
  IndexedDB object store;
- the transaction method of createDBController in src/indexedDB/dbController.ts,
  modelled at the level of synchronous-throw versus promise-rejection outcomes;
- the useThreadedWorker scheduler (run, processNext, clearQueue, terminate),
  modelled as a state machine whose events are the scheduler entry points and
  the asynchronous completions of started tasks.

Promises are modelled by Except at the resolution level: a deferred that is
created and cached is represented by its identity; an operation that can
reject is a function into Except.
-/

namespace Spec2Proof

/-! ## Connection registry (openDB) -/

/-- Key path of an object store: a single field name or an ordered list of
field names, mirroring the TypeScript type string | string[]. -/
inductive KeyPathSpec where
  | single (field : String)
  | composite (fields : List String)
  deriving DecidableEq, Repr

/-- Table schema from src/indexedDB/types.ts: key path, optional
auto-increment flag, optional list of index names. -/
structure TableSchema where
  keyPath : KeyPathSpec
  autoIncrement : Option Bool := none
  indexes : Option (List String) := none
  deriving DecidableEq, Repr

/-- Configuration passed to openDB: database name, version, and the map of
table name to schema (a JavaScript object, embedded as an association list
whose keys are distinct). -/
structure IndexedDBConfig where
  name : String
  version : Nat
  tables : List (String × TableSchema)
  deriving DecidableEq, Repr

/-- Lookup in an association list with string keys, used for the
connectionCache map and for JavaScript object field access. -/
def lookupStr {α : Type} : List (String × α) → String → Option α
  | [], _ => none
  | (k, v) :: rest, key => if k = key then some v else lookupStr rest key

/-- State of the module-level connectionCache of openDB.ts. A deferred
connection (a Promise of IDBDatabase) is represented by the numeric identity
it was allocated; nextId is the allocator for fresh deferreds. -/
structure RegState where
  cache : List (String × Nat)
  nextId : Nat
  deriving DecidableEq, Repr

/-- Initial registry state: empty cache. -/
def RegState.init : RegState := ⟨[], 0⟩

/-- Cache key computed by openDB: the template literal with name and version. -/
def dbKey (config : IndexedDBConfig) : String :=
  config.name ++ "_v" ++ toString config.version

/-- The openDB function of openDB.ts: look the key up in the cache and return
the cached deferred unchanged if present; otherwise start a new open sequence
(allocate a fresh deferred), store it in the cache immediately (before the
open completes), and return it. -/
def openDB (config : IndexedDBConfig) (s : RegState) : Nat × RegState :=
  match lookupStr s.cache (dbKey config) with
  | some p => (p, s)
  | none => (s.nextId, ⟨(dbKey config, s.nextId) :: s.cache, s.nextId + 1⟩)

/-- Running a list of openDB calls in order, returning the final state. -/
def openTrace (configs : List IndexedDBConfig) (s : RegState) : RegState :=
  match configs with
  | [] => s
  | c :: rest => openTrace rest (openDB c s).2

theorem lookupStr_cons {α : Type} (k key : String) (v : α) (l : List (String × α)) :
    lookupStr ((k, v) :: l) key = if k = key then some v else lookupStr l key := rfl

/-- An existing cache binding survives any later openDB call. -/
theorem openDB_preserves_cache (c : IndexedDBConfig) (s : RegState) (key : String) (v : Nat)
    (h : lookupStr s.cache key = some v) :
    lookupStr (openDB c s).2.cache key = some v := by
  unfold openDB
  cases hc : lookupStr s.cache (dbKey c) with
  | some p => simpa using h
  | none =>
      simp only [lookupStr_cons]
      by_cases hk : dbKey c = key
      · subst hk; rw [h] at hc; cases hc
      · simpa [hk] using h

/-- An existing cache binding survives any later trace of openDB calls. -/
theorem openTrace_preserves_cache (cs : List IndexedDBConfig) (s : RegState)
    (key : String) (v : Nat) (h : lookupStr s.cache key = some v) :
    lookupStr (openTrace cs s).cache key = some v := by
  induction cs generalizing s with
  | nil => simpa [openTrace] using h
  | cons c rest ih =>
      simp only [openTrace]
      exact ih _ (openDB_preserves_cache c s key v h)

/-- Immediately after an openDB call, the cache maps the config key to the
returned deferred. -/
theorem openDB_caches_result (c : IndexedDBConfig) (s : RegState) :
    lookupStr (openDB c s).2.cache (dbKey c) = some (openDB c s).1 := by
  unfold openDB
  cases hc : lookupStr s.cache (dbKey c) with
  | some p => simpa using hc
  | none => simp [lookupStr_cons]

/-- When the key is already cached, openDB returns the cached deferred and
leaves the state entirely unchanged. -/
theorem openDB_cached_noop (c : IndexedDBConfig) (s : RegState) (v : Nat)
    (h : lookupStr s.cache (dbKey c) = some v) :
    openDB c s = (v, s) := by
  unfold openDB
  rw [h]

/-- C1: the connection registry is single-flight per (name, version). The
cache entry for a call is stored synchronously, before the open completes
(openDB_caches_result conjunct); a second call with the same (name, version),
issued at any later point of the process — in particular while the first open
is still pending, since the model never requires completion — returns exactly
the deferred of the first call and leaves the registry unchanged. Hence no
trace of openDB calls ever allocates two distinct live connections for one
(name, version) pair. -/
theorem openDB_single_flight (c c₂ : IndexedDBConfig) (cs : List IndexedDBConfig)
    (s : RegState) (hname : c₂.name = c.name) (hver : c₂.version = c.version) :
    lookupStr (openDB c s).2.cache (dbKey c) = some (openDB c s).1 ∧
    openDB c₂ (openTrace cs (openDB c s).2) =
      ((openDB c s).1, openTrace cs (openDB c s).2) := by
  have hkey : dbKey c₂ = dbKey c := by
    unfold dbKey; rw [hname, hver]
  refine ⟨openDB_caches_result c s, ?_⟩
  have hpres : lookupStr (openTrace cs (openDB c s).2).cache (dbKey c) =
      some (openDB c s).1 :=
    openTrace_preserves_cache cs _ _ _ (openDB_caches_result c s)
  have := openDB_cached_noop c₂ (openTrace cs (openDB c s).2) (openDB c s).1
    (by rw [hkey]; exact hpres)
  exact this

/-- Witness for C1 at concrete inputs: two opens of (db, 1) with an unrelated
open of (other, 2) in between return the same deferred. -/
theorem openDB_single_flight_witness :
    (let c : IndexedDBConfig := ⟨"db", 1, []⟩
     let c₂ : IndexedDBConfig := ⟨"db", 1, [("t", ⟨.single "id", none, none⟩)]⟩
     let mid : IndexedDBConfig := ⟨"other", 2, []⟩
     lookupStr (openDB c RegState.init).2.cache (dbKey c) =
       some (openDB c RegState.init).1 ∧
     openDB c₂ (openTrace [mid] (openDB c RegState.init).2) =
       ((openDB c RegState.init).1, openTrace [mid] (openDB c RegState.init).2)) :=
  openDB_single_flight ⟨"db", 1, []⟩ ⟨"db", 1, [("t", ⟨.single "id", none, none⟩)]⟩
    [⟨"other", 2, []⟩] RegState.init rfl rfl

/-! ## Schema upgrade (onupgradeneeded handler inside _openDB) -/

/-- A secondary index of an object store, as created by
store.createIndex(indexName, indexName, { unique: false }): the index key
path equals the index name and the unique flag is recorded. -/
structure IndexInfo where
  name : String
  indexKeyPath : String
  unique : Bool
  deriving DecidableEq, Repr

/-- An object store as visible to the upgrade handler: the key path and
auto-increment flag it was created with, and its secondary indexes. -/
structure StoreSchema where
  keyPath : KeyPathSpec
  autoIncrement : Bool
  indexes : List IndexInfo
  deriving DecidableEq, Repr

/-- The schema of a database container: its object stores by name
(objectStoreNames etc.). -/
structure DBSchema where
  stores : List (String × StoreSchema)
  deriving DecidableEq, Repr

/-- The db.objectStoreNames.contains check. -/
def containsStore (db : DBSchema) (name : String) : Bool :=
  (lookupStr db.stores name).isSome

/-- Body of one iteration of the upgrade loop of _openDB: if the store does
not already exist, create it with the configured key path and auto-increment
flag (defaulting to false) and create each configured index on it with
unique: false; otherwise do nothing. Also reports the name of the store it
created, if any. -/
def upgradeStep (db : DBSchema) (tableName : String) (schema : TableSchema) :
    DBSchema × Option String :=
  if containsStore db tableName then (db, none)
  else
    (⟨db.stores ++ [(tableName,
        ⟨schema.keyPath, schema.autoIncrement.getD false,
         (schema.indexes.getD []).map (fun i => ⟨i, i, false⟩)⟩)]⟩,
     some tableName)

/-- The full onupgradeneeded handler of _openDB: iterate over the configured
tables in order, creating each missing store with its indexes. Returns the
upgraded schema together with the list of store names whose creation was
attempted (used to state that a second upgrade attempts no creation). -/
def upgradeDB (tables : List (String × TableSchema)) (db : DBSchema) :
    DBSchema × List String :=
  match tables with
  | [] => (db, [])
  | (tableName, schema) :: rest =>
      let step := upgradeStep db tableName schema
      let restRun := upgradeDB rest step.1
      (restRun.1, step.2.toList ++ restRun.2)

theorem lookupStr_append_left {α : Type} (l l₂ : List (String × α)) (key : String)
    (v : α) (h : lookupStr l key = some v) : lookupStr (l ++ l₂) key = some v := by
  induction l with
  | nil => cases h
  | cons p rest ih =>
      simp only [List.cons_append, lookupStr] at h ⊢
      by_cases hk : p.1 = key
      · simpa [hk] using h
      · simp only [hk, if_false] at h ⊢
        exact ih h

theorem lookupStr_append_none {α : Type} (l l₂ : List (String × α)) (key : String)
    (h : lookupStr l key = none) : lookupStr (l ++ l₂) key = lookupStr l₂ key := by
  induction l with
  | nil => rfl
  | cons p rest ih =>
      simp only [List.cons_append, lookupStr] at h ⊢
      by_cases hk : p.1 = key
      · simp [hk] at h
      · simp only [hk, if_false] at h ⊢
        exact ih h

/-- An existing store binding survives one upgrade step. -/
theorem upgradeStep_preserves (db : DBSchema) (tableName : String)
    (schema : TableSchema) (n : String) (s : StoreSchema)
    (h : lookupStr db.stores n = some s) :
    lookupStr (upgradeStep db tableName schema).1.stores n = some s := by
  cases hc : containsStore db tableName with
  | true => simpa [upgradeStep, hc] using h
  | false =>
      simp only [upgradeStep, hc, Bool.false_eq_true, if_false]
      exact lookupStr_append_left _ _ _ _ h

/-- An existing store binding survives the whole upgrade loop: existing
stores, with all their indexes, are left untouched. -/
theorem upgradeDB_preserves (tables : List (String × TableSchema)) (db : DBSchema)
    (n : String) (s : StoreSchema) (h : lookupStr db.stores n = some s) :
    lookupStr (upgradeDB tables db).1.stores n = some s := by
  induction tables generalizing db with
  | nil => simpa [upgradeDB] using h
  | cons t rest ih =>
      obtain ⟨tableName, schema⟩ := t
      simp only [upgradeDB]
      exact ih _ (upgradeStep_preserves db tableName schema n s h)

/-- A store absent from the schema stays absent through an upgrade step for a
different table name. -/
theorem upgradeStep_absent (db : DBSchema) (tableName : String)
    (schema : TableSchema) (n : String) (hne : tableName ≠ n)
    (h : lookupStr db.stores n = none) :
    lookupStr (upgradeStep db tableName schema).1.stores n = none := by
  cases hc : containsStore db tableName with
  | true => simpa [upgradeStep, hc] using h
  | false =>
      simp only [upgradeStep, hc, Bool.false_eq_true, if_false]
      rw [lookupStr_append_none _ _ _ h]
      simp [lookupStr, hne]

/-- The upgrade loop creates a configured store that is missing from the
schema, with the configured key path, auto-increment flag (default false) and
all configured indexes, each non-unique. The binding looked up in tables is
the first one for that name, matching JavaScript object key semantics. -/
theorem upgradeDB_creates (tables : List (String × TableSchema)) (db : DBSchema)
    (n : String) (schema : TableSchema)
    (htab : lookupStr tables n = some schema)
    (habs : lookupStr db.stores n = none) :
    lookupStr (upgradeDB tables db).1.stores n =
      some ⟨schema.keyPath, schema.autoIncrement.getD false,
        (schema.indexes.getD []).map (fun i => ⟨i, i, false⟩)⟩ := by
  induction tables generalizing db with
  | nil => cases htab
  | cons t rest ih =>
      obtain ⟨tableName, tschema⟩ := t
      simp only [lookupStr] at htab
      by_cases hk : tableName = n
      · subst hk
        simp only [if_pos rfl] at htab
        cases htab
        simp only [upgradeDB]
        apply upgradeDB_preserves
        have hc : containsStore db tableName = false := by
          simp [containsStore, habs]
        simp only [upgradeStep, hc, Bool.false_eq_true, if_false]
        rw [lookupStr_append_none _ _ _ habs]
        simp [lookupStr]
      · simp only [hk, if_false] at htab
        simp only [upgradeDB]
        exact ih _ htab (upgradeStep_absent db tableName tschema n hk habs)

/-- After the upgrade loop, every configured table name has a store. -/
theorem upgradeDB_all_contained (tables : List (String × TableSchema))
    (db : DBSchema) (n : String) (hn : n ∈ tables.map Prod.fst) :
    containsStore (upgradeDB tables db).1 n = true := by
  induction tables generalizing db with
  | nil => cases hn
  | cons t rest ih =>
      obtain ⟨tableName, tschema⟩ := t
      simp only [List.map_cons, List.mem_cons] at hn
      simp only [upgradeDB]
      rcases hn with hn | hn
      · subst hn
        have : ∃ s, lookupStr (upgradeStep db n tschema).1.stores n = some s := by
          cases hc : containsStore db n with
          | true =>
              simp only [upgradeStep, hc, if_true]
              exact Option.isSome_iff_exists.mp hc
          | false =>
              simp only [upgradeStep, hc, Bool.false_eq_true, if_false]
              have habs : lookupStr db.stores n = none := by
                have h₁ : (lookupStr db.stores n).isSome = false := hc
                cases hv : lookupStr db.stores n with
                | none => rfl
                | some v => rw [hv] at h₁; cases h₁
              refine ⟨⟨tschema.keyPath, tschema.autoIncrement.getD false,
                (tschema.indexes.getD []).map (fun i => ⟨i, i, false⟩)⟩, ?_⟩
              rw [lookupStr_append_none _ _ _ habs]
              simp [lookupStr]
        obtain ⟨s, hs⟩ := this
        have := upgradeDB_preserves rest _ n s hs
        simp [containsStore, this]
      · exact ih _ hn

/-- When every configured table already has a store, the upgrade loop is the
identity and attempts no creation at all. -/
theorem upgradeDB_noop (tables : List (String × TableSchema)) (db : DBSchema)
    (h : ∀ n ∈ tables.map Prod.fst, containsStore db n = true) :
    upgradeDB tables db = (db, []) := by
  induction tables with
  | nil => rfl
  | cons t rest ih =>
      obtain ⟨tableName, tschema⟩ := t
      have hc : containsStore db tableName = true := h tableName (by simp)
      simp only [upgradeDB, upgradeStep, hc, if_true]
      have := ih (fun n hn => h n (by simp [hn]))
      simp [this]

/-- Counterexample to C4: when a store already exists without a configured
index, the upgrade leaves the store untouched and the configured index does
not exist on the store after the upgrade completes — index creation only
happens for stores created in the same upgrade. Here store t pre-exists with
no indexes, the configuration lists index idx on t, and after the upgrade t
still has no indexes. -/
theorem upgradeDB_missing_index_counterexample :
    (let db : DBSchema := ⟨[("t", ⟨.single "id", false, []⟩)]⟩
     let tables : List (String × TableSchema) :=
       [("t", ⟨.single "id", none, some ["idx"]⟩)]
     (upgradeDB tables db).1 = db ∧
     lookupStr (upgradeDB tables db).1.stores "t" =
       some ⟨.single "id", false, []⟩ ∧
     ∀ s, lookupStr (upgradeDB tables db).1.stores "t" = some s →
       ¬ ∃ i ∈ s.indexes, i.name = "idx") := by
  refine ⟨by decide, by decide, ?_⟩
  intro s hs
  have : s = ⟨.single "id", false, []⟩ := by
    have h₂ : lookupStr (upgradeDB [("t", ⟨.single "id", none, some ["idx"]⟩)]
        (⟨[("t", ⟨.single "id", false, []⟩)]⟩ : DBSchema)).1.stores "t" =
        some ⟨.single "id", false, []⟩ := by decide
    rw [h₂] at hs
    exact (Option.some_inj.mp hs).symm
  subst this
  rintro ⟨i, hi, _⟩
  cases hi

/-- C4 amended: the upgrade handler creates every configured object store
that does not already exist, with the configured key path, auto-increment
flag (default false) and each configured secondary index as non-unique; it is
idempotent — stores and indexes already present are left untouched, and a
repeated upgrade with the same configuration changes nothing and attempts no
store or index creation (so no duplicate-creation error can occur). However,
configured indexes are only guaranteed to exist on stores the upgrade itself
created: a pre-existing store missing a configured index is left without it. -/
theorem upgradeDB_spec (tables : List (String × TableSchema)) (db : DBSchema) :
    (∀ n s, lookupStr db.stores n = some s →
      lookupStr (upgradeDB tables db).1.stores n = some s) ∧
    (∀ n schema, lookupStr tables n = some schema →
      lookupStr db.stores n = none →
      lookupStr (upgradeDB tables db).1.stores n =
        some ⟨schema.keyPath, schema.autoIncrement.getD false,
          (schema.indexes.getD []).map (fun i => ⟨i, i, false⟩)⟩) ∧
    upgradeDB tables (upgradeDB tables db).1 = ((upgradeDB tables db).1, []) := by
  refine ⟨fun n s h => upgradeDB_preserves tables db n s h,
    fun n schema htab habs => upgradeDB_creates tables db n schema htab habs, ?_⟩
  exact upgradeDB_noop tables _ (fun n hn => upgradeDB_all_contained tables db n hn)

/-- Witness for C4 amended at a concrete configuration: an empty database
upgraded with one table u carrying index e gets the store with its non-unique
index; a second upgrade changes nothing and creates nothing. -/
theorem upgradeDB_spec_witness :
    (lookupStr (upgradeDB [("u", ⟨.single "id", some true, some ["e"]⟩)]
        (⟨[]⟩ : DBSchema)).1.stores "u" =
      some ⟨.single "id", true, [⟨"e", "e", false⟩]⟩) ∧
    upgradeDB [("u", ⟨.single "id", some true, some ["e"]⟩)]
        (upgradeDB [("u", ⟨.single "id", some true, some ["e"]⟩)] (⟨[]⟩ : DBSchema)).1 =
      ((upgradeDB [("u", ⟨.single "id", some true, some ["e"]⟩)] (⟨[]⟩ : DBSchema)).1, []) := by
  have h := upgradeDB_spec [("u", ⟨.single "id", some true, some ["e"]⟩)] (⟨[]⟩ : DBSchema)
  exact ⟨h.2.1 "u" ⟨.single "id", some true, some ["e"]⟩ (by decide) (by decide), h.2.2⟩

/-! ## DatabaseController.transaction: synchronous throw versus rejection -/

/-- Behavior of a transaction callback as observable at the call site:
it either throws synchronously when invoked, or returns (a value, or a
promise whose eventual outcome is an Except). -/
inductive CallbackBehavior (ε : Type) where
  | syncThrow (e : ε)
  | ret (outcome : Except ε Unit)

/-- The transaction method of createDBController, at the granularity of
settlement outcomes. The outer Except is the synchronous behavior of the
transaction(...) call itself (error = it throws synchronously); the inner
Except is the settlement of the promise it returns. The code invokes
callback(txContext) directly, then builds
Promise.resolve(callbackResult).then(fun _ => txPromise), where txPromise
carries the native transaction completion signal txOutcome. -/
def transactionRun {ε : Type} (cb : CallbackBehavior ε) (txOutcome : Except ε Unit) :
    Except ε (Except ε Unit) :=
  match cb with
  | .syncThrow e => .error e
  | .ret r => .ok (r.bind (fun _ => txOutcome))

/-- Counterexample to C9: a callback that throws synchronously (error code 7)
makes transaction(...) itself throw synchronously rather than return a
promise rejecting with that error: the outer outcome is an error, not an ok
carrying a rejected promise. -/
theorem transactionRun_sync_throw_counterexample :
    transactionRun (ε := Nat) (.syncThrow 7) (.ok ()) = .error 7 ∧
    transactionRun (ε := Nat) (.syncThrow 7) (.ok ()) ≠ .ok (.error 7) := by
  constructor
  · rfl
  · intro h
    exact Except.noConfusion h

/-- C9 amended: errors of a callback that does not throw synchronously do
surface as rejections of the returned promise — a callback returning a
rejected promise yields a returned promise rejecting with that error, and a
callback returning a resolved promise yields a promise settling with the
native transaction signal — but a callback that throws synchronously
propagates as a synchronous throw out of transaction(...), not as a
rejection. -/
theorem transactionRun_error_propagation {ε : Type} (e : ε) (txOutcome : Except ε Unit) :
    transactionRun (.ret (.error e)) txOutcome = .ok (.error e) ∧
    transactionRun (.ret (.ok ())) txOutcome = .ok txOutcome ∧
    transactionRun (.syncThrow e) txOutcome = .error e :=
  ⟨rfl, rfl, rfl⟩

/-! ## Task queue scheduler (useThreadedWorker)

The scheduler is embedded as a state machine. Its state holds the pieces of
mutable state of the hook (queueRef, sequenceRef, activeCountRef,
terminatedRef, and the result and error observables), together with ghost
fields recording externally observable history: the tasks started so far in
order, the tasks currently running, and the settlements of task promises.
Events are the entry points run, clearQueue and terminate, the deferred
selection pass scheduled by queueMicrotask (micro), and the asynchronous
completion of a running task (completeEv), which triggers the then/catch and
the finally handler of processNext. -/

/-- Default priority of useThreadedWorker: lower number means higher
priority. -/
def DEFAULT_PRIORITY : Int := 1

/-- Execution mode of the scheduler. -/
inductive WorkerMode where
  | sequential
  | parallel
  deriving DecidableEq, Repr

/-- The maxConcurrent computation of useThreadedWorker:
mode === "sequential" ? 1 : Math.max(1, concurrency), with concurrency
defaulting to 4 at the call site. -/
def maxConcurrentOf (mode : WorkerMode) (concurrency : Nat) : Nat :=
  if mode = .sequential then 1 else max 1 concurrency

/-- A queued task of useThreadedWorker: payload, priority, and the insertion
sequence number; the resolution callbacks are represented by the sequence
number identifying the task promise in the settlement log. -/
structure Task (δ : Type) where
  data : δ
  priority : Int
  sequence : Nat
  deriving DecidableEq, Repr

/-- The order induced by the sort comparator of processNext:
a.priority - b.priority, with ties broken by a.sequence - b.sequence. Task a
sorts no later than b when its priority is smaller, or equal with a no larger
sequence number. -/
def taskLE {δ : Type} (a b : Task δ) : Prop :=
  a.priority < b.priority ∨ (a.priority = b.priority ∧ a.sequence ≤ b.sequence)

instance {δ : Type} : DecidableRel (taskLE (δ := δ)) := fun a b => by
  unfold taskLE
  infer_instance

instance {δ : Type} : IsTotal (Task δ) taskLE where
  total a b := by
    unfold taskLE
    omega

instance {δ : Type} : IsTrans (Task δ) taskLE where
  trans a b c hab hbc := by
    unfold taskLE at hab hbc ⊢
    omega

/-- The queue sort of processNext: queueRef.current.sort by the comparator.
JavaScript Array.prototype.sort is a stable sort by the comparator order;
insertion sort realizes exactly that. -/
def sortQueue {δ : Type} (l : List (Task δ)) : List (Task δ) :=
  l.insertionSort taskLE

/-- Settlement of one task promise: resolved with a worker value, rejected
with a worker error, or rejected because the task was cleared from the
queue. -/
inductive TaskOutcome (ρ ε : Type) where
  | value (v : ρ)
  | failed (e : ε)
  | cleared
  deriving DecidableEq, Repr

/-- Scheduler state: the refs of useThreadedWorker plus observable history.
queue, sequence, activeCount and terminated mirror queueRef, sequenceRef,
activeCountRef and terminatedRef; result and error mirror the result and
error observables; running, started and settled record which tasks are
currently executing, every task start in order, and every settlement of a
task promise. -/
structure SchedState (δ ρ ε : Type) where
  queue : List (Task δ)
  sequence : Nat
  activeCount : Nat
  terminated : Bool
  result : Option ρ
  error : Option ε
  running : List (Task δ)
  started : List (Task δ)
  settled : List (Nat × TaskOutcome ρ ε)
  deriving DecidableEq, Repr

/-- Initial scheduler state of a freshly mounted hook. -/
def initSched {δ ρ ε : Type} : SchedState δ ρ ε :=
  ⟨[], 0, 0, false, none, none, [], [], []⟩

/-- One selection pass of processNext, with an explicit recursion bound: the
code returns if terminated, if the concurrency limit is reached, or if the
queue is empty; otherwise it sorts the queue by (priority, sequence), shifts
the front task, increments activeCount and starts the task, and finally
recurses to fill remaining slots while the queue is non-empty and slots
remain. Each pass removes one task from the queue, so the recursion is
bounded by the queue length; the bound is passed explicitly to keep the
definition structurally recursive (the zero-fuel branch is unreachable when
the bound is at least the queue length). -/
def processNextAux {δ ρ ε : Type} [DecidableEq δ] (mc : Nat) :
    Nat → SchedState δ ρ ε → SchedState δ ρ ε
  | fuel, s =>
    if s.terminated then s
    else if mc ≤ s.activeCount then s
    else
      match sortQueue s.queue with
      | [] => s
      | t :: rest =>
          let s₁ : SchedState δ ρ ε :=
            { s with
              queue := rest
              activeCount := s.activeCount + 1
              running := s.running ++ [t]
              started := s.started ++ [t] }
          if 0 < rest.length ∧ s.activeCount + 1 < mc then
            match fuel with
            | 0 => s₁
            | fuel₂ + 1 => processNextAux mc fuel₂ s₁
          else s₁

/-- The processNext callback of useThreadedWorker. -/
def processNext {δ ρ ε : Type} [DecidableEq δ] (mc : Nat) (s : SchedState δ ρ ε) :
    SchedState δ ρ ε :=
  processNextAux mc s.queue.length s

/-- Outcome of a call to run: the task was accepted (identified by its
insertion sequence number), or the call was rejected immediately with the
distinct Worker-is-terminated reason. -/
inductive RunOutcome where
  | accepted (sequence : Nat)
  | rejectedTerminated
  deriving DecidableEq, Repr

/-- The run entry point: reject immediately when terminated; otherwise assign
the given priority (default DEFAULT_PRIORITY) and the next insertion sequence
number (pre-incremented), push the task, and schedule a selection pass (the
queueMicrotask(processNext) call is the later micro event). -/
def runTask {δ ρ ε : Type} (data : δ) (pri : Option Int)
    (s : SchedState δ ρ ε) : RunOutcome × SchedState δ ρ ε :=
  if s.terminated then (.rejectedTerminated, s)
  else
    let priority := pri.getD DEFAULT_PRIORITY
    let sequence := s.sequence + 1
    (.accepted sequence,
     { s with
       sequence := sequence
       queue := s.queue ++ [⟨data, priority, sequence⟩] })

/-- The clearQueue entry point: empty the queue and reject every pending task
with the distinct Task-cleared-from-queue reason. -/
def clearQueueOp {δ ρ ε : Type} (s : SchedState δ ρ ε) : SchedState δ ρ ε :=
  { s with
    queue := []
    settled := s.settled ++ s.queue.map (fun t => (t.sequence, TaskOutcome.cleared)) }

/-- The terminate entry point: set the one-way terminated flag, then
clearQueue. -/
def terminateOp {δ ρ ε : Type} (s : SchedState δ ρ ε) : SchedState δ ρ ε :=
  clearQueueOp { s with terminated := true }

/-- Completion of the running task t with worker outcome out: the then
handler records the value as last result and resets the error observable, or
the catch handler records the error; either way the task promise settles,
and the finally handler decrements activeCount and re-triggers a selection
pass. -/
def completeTask {δ ρ ε : Type} [DecidableEq δ] (mc : Nat) (t : Task δ)
    (out : Except ε ρ) (s : SchedState δ ρ ε) : SchedState δ ρ ε :=
  let s₁ : SchedState δ ρ ε :=
    match out with
    | .ok v =>
        { s with
          result := some v
          error := none
          settled := s.settled ++ [(t.sequence, .value v)] }
    | .error e =>
        { s with
          error := some e
          settled := s.settled ++ [(t.sequence, .failed e)] }
  processNext mc
    { s₁ with
      activeCount := s₁.activeCount - 1
      running := s₁.running.erase t }

/-- Events of the scheduler state machine. -/
inductive SchedEvent (δ ρ ε : Type) where
  | runEv (data : δ) (pri : Option Int)
  | micro
  | completeEv (t : Task δ) (out : Except ε ρ)
  | clearEv
  | terminateEv

/-- One step of the scheduler: a completion event only applies to a task that
is actually running. -/
def schedStep {δ ρ ε : Type} [DecidableEq δ] (mc : Nat) (s : SchedState δ ρ ε) :
    SchedEvent δ ρ ε → SchedState δ ρ ε
  | .runEv d p => (runTask d p s).2
  | .micro => processNext mc s
  | .completeEv t out => if t ∈ s.running then completeTask mc t out s else s
  | .clearEv => clearQueueOp s
  | .terminateEv => terminateOp s

/-- Running a list of scheduler events in order. -/
def schedRun {δ ρ ε : Type} [DecidableEq δ] (mc : Nat)
    (events : List (SchedEvent δ ρ ε)) (s : SchedState δ ρ ε) : SchedState δ ρ ε :=
  events.foldl (schedStep mc) s

/-! ### Scheduler lemmas -/

/-- In a terminated state a selection pass does nothing. -/
theorem processNextAux_terminated {δ ρ ε : Type} [DecidableEq δ] (mc fuel : Nat)
    (s : SchedState δ ρ ε) (h : s.terminated = true) :
    processNextAux mc fuel s = s := by
  rw [processNextAux]
  simp [h]

/-- With the concurrency limit reached, a selection pass does nothing. -/
theorem processNextAux_full {δ ρ ε : Type} [DecidableEq δ] (mc fuel : Nat)
    (s : SchedState δ ρ ε) (h : mc ≤ s.activeCount) :
    processNextAux mc fuel s = s := by
  rw [processNextAux]
  by_cases ht : s.terminated = true
  · simp [ht]
  · simp [ht, h]

/-- With an empty queue, a selection pass does nothing to the state. -/
theorem processNextAux_nil {δ ρ ε : Type} [DecidableEq δ] (mc fuel : Nat)
    (s : SchedState δ ρ ε) (h : sortQueue s.queue = []) :
    processNextAux mc fuel s = s := by
  rw [processNextAux]
  by_cases ht : s.terminated = true
  · simp [ht]
  · by_cases ha : mc ≤ s.activeCount
    · simp [ht, ha]
    · simp [ht, ha, h]

/-- Step equation of the selection pass when a task is started and the
recursion bound is zero: the recursion stops after starting the front task. -/
theorem processNextAux_start_zero {δ ρ ε : Type} [DecidableEq δ] (mc : Nat)
    (s : SchedState δ ρ ε) (hterm : s.terminated = false)
    (hact : s.activeCount < mc) (t : Task δ) (rest : List (Task δ))
    (hts : sortQueue s.queue = t :: rest) :
    processNextAux mc 0 s =
      { s with
        queue := rest
        activeCount := s.activeCount + 1
        running := s.running ++ [t]
        started := s.started ++ [t] } := by
  rw [processNextAux]
  rw [if_neg (by simp [hterm]), if_neg (Nat.not_le.mpr hact)]
  simp only [hts]
  exact ite_self _

/-- Step equation of the selection pass when a task is started with a
positive recursion bound: the front of the sorted queue is started, and the
pass recurses exactly when the remaining queue is non-empty and a slot is
still free. -/
theorem processNextAux_start_succ {δ ρ ε : Type} [DecidableEq δ] (mc n : Nat)
    (s : SchedState δ ρ ε) (hterm : s.terminated = false)
    (hact : s.activeCount < mc) (t : Task δ) (rest : List (Task δ))
    (hts : sortQueue s.queue = t :: rest) :
    processNextAux mc (n + 1) s =
      (if 0 < rest.length ∧ s.activeCount + 1 < mc then
        processNextAux mc n
          { s with
            queue := rest
            activeCount := s.activeCount + 1
            running := s.running ++ [t]
            started := s.started ++ [t] }
      else
        { s with
          queue := rest
          activeCount := s.activeCount + 1
          running := s.running ++ [t]
          started := s.started ++ [t] }) := by
  conv_lhs => rw [processNextAux]
  rw [if_neg (by simp [hterm]), if_neg (Nat.not_le.mpr hact)]
  simp only [hts]

/-- A selection pass does not touch the terminated flag, the result and error
observables, the settlement log, or the sequence counter. -/
theorem processNextAux_preserves {δ ρ ε : Type} [DecidableEq δ] (mc : Nat) :
    ∀ (fuel : Nat) (s : SchedState δ ρ ε),
      (processNextAux mc fuel s).terminated = s.terminated ∧
      (processNextAux mc fuel s).result = s.result ∧
      (processNextAux mc fuel s).error = s.error ∧
      (processNextAux mc fuel s).settled = s.settled ∧
      (processNextAux mc fuel s).sequence = s.sequence := by
  intro fuel
  induction fuel with
  | zero =>
      intro s
      by_cases hterm : s.terminated = true
      · rw [processNextAux_terminated mc 0 s hterm]; exact ⟨rfl, rfl, rfl, rfl, rfl⟩
      · have hterm₂ : s.terminated = false := by simpa using hterm
        rcases Nat.lt_or_ge s.activeCount mc with hact | hact
        · cases hts : sortQueue s.queue with
          | nil => rw [processNextAux_nil mc 0 s hts]; exact ⟨rfl, rfl, rfl, rfl, rfl⟩
          | cons t rest =>
              rw [processNextAux_start_zero mc s hterm₂ hact t rest hts]
              exact ⟨rfl, rfl, rfl, rfl, rfl⟩
        · rw [processNextAux_full mc 0 s hact]; exact ⟨rfl, rfl, rfl, rfl, rfl⟩
  | succ n ih =>
      intro s
      by_cases hterm : s.terminated = true
      · rw [processNextAux_terminated mc (n + 1) s hterm]; exact ⟨rfl, rfl, rfl, rfl, rfl⟩
      · have hterm₂ : s.terminated = false := by simpa using hterm
        rcases Nat.lt_or_ge s.activeCount mc with hact | hact
        · cases hts : sortQueue s.queue with
          | nil => rw [processNextAux_nil mc (n + 1) s hts]; exact ⟨rfl, rfl, rfl, rfl, rfl⟩
          | cons t rest =>
              rw [processNextAux_start_succ mc n s hterm₂ hact t rest hts]
              split
              · exact ih _
              · exact ⟨rfl, rfl, rfl, rfl, rfl⟩
        · rw [processNextAux_full mc (n + 1) s hact]; exact ⟨rfl, rfl, rfl, rfl, rfl⟩

/-- A selection pass only adds to the started log. -/
theorem processNextAux_started {δ ρ ε : Type} [DecidableEq δ] (mc : Nat) :
    ∀ (fuel : Nat) (s : SchedState δ ρ ε),
      ∃ l, (processNextAux mc fuel s).started = s.started ++ l := by
  intro fuel
  induction fuel with
  | zero =>
      intro s
      by_cases hterm : s.terminated = true
      · rw [processNextAux_terminated mc 0 s hterm]; exact ⟨[], by simp⟩
      · have hterm₂ : s.terminated = false := by simpa using hterm
        rcases Nat.lt_or_ge s.activeCount mc with hact | hact
        · cases hts : sortQueue s.queue with
          | nil => rw [processNextAux_nil mc 0 s hts]; exact ⟨[], by simp⟩
          | cons t rest =>
              rw [processNextAux_start_zero mc s hterm₂ hact t rest hts]
              exact ⟨[t], rfl⟩
        · rw [processNextAux_full mc 0 s hact]; exact ⟨[], by simp⟩
  | succ n ih =>
      intro s
      by_cases hterm : s.terminated = true
      · rw [processNextAux_terminated mc (n + 1) s hterm]; exact ⟨[], by simp⟩
      · have hterm₂ : s.terminated = false := by simpa using hterm
        rcases Nat.lt_or_ge s.activeCount mc with hact | hact
        · cases hts : sortQueue s.queue with
          | nil => rw [processNextAux_nil mc (n + 1) s hts]; exact ⟨[], by simp⟩
          | cons t rest =>
              rw [processNextAux_start_succ mc n s hterm₂ hact t rest hts]
              split
              · obtain ⟨l, hl⟩ := ih
                  { s with
                    queue := rest
                    activeCount := s.activeCount + 1
                    running := s.running ++ [t]
                    started := s.started ++ [t] }
                refine ⟨t :: l, ?_⟩
                rw [hl]
                simp
              · exact ⟨[t], rfl⟩
        · rw [processNextAux_full mc (n + 1) s hact]; exact ⟨[], by simp⟩

/-- The concurrency bound is preserved by a selection pass: a task is only
started while activeCount is strictly below the limit. -/
theorem processNextAux_active_le {δ ρ ε : Type} [DecidableEq δ] (mc : Nat) :
    ∀ (fuel : Nat) (s : SchedState δ ρ ε), s.activeCount ≤ mc →
      (processNextAux mc fuel s).activeCount ≤ mc := by
  intro fuel
  induction fuel with
  | zero =>
      intro s h
      by_cases hterm : s.terminated = true
      · rw [processNextAux_terminated mc 0 s hterm]; exact h
      · have hterm₂ : s.terminated = false := by simpa using hterm
        rcases Nat.lt_or_ge s.activeCount mc with hact | hact
        · cases hts : sortQueue s.queue with
          | nil => rw [processNextAux_nil mc 0 s hts]; exact h
          | cons t rest =>
              rw [processNextAux_start_zero mc s hterm₂ hact t rest hts]
              exact Nat.succ_le_of_lt hact
        · rw [processNextAux_full mc 0 s hact]; exact h
  | succ n ih =>
      intro s h
      by_cases hterm : s.terminated = true
      · rw [processNextAux_terminated mc (n + 1) s hterm]; exact h
      · have hterm₂ : s.terminated = false := by simpa using hterm
        rcases Nat.lt_or_ge s.activeCount mc with hact | hact
        · cases hts : sortQueue s.queue with
          | nil => rw [processNextAux_nil mc (n + 1) s hts]; exact h
          | cons t rest =>
              rw [processNextAux_start_succ mc n s hterm₂ hact t rest hts]
              split
              · exact ih _ (Nat.succ_le_of_lt hact)
              · exact Nat.succ_le_of_lt hact
        · rw [processNextAux_full mc (n + 1) s hact]; exact h

/-- The order taskLE is reflexive. -/
theorem taskLE_refl {δ : Type} (t : Task δ) : taskLE t t :=
  Or.inr ⟨rfl, Nat.le_refl _⟩

/-- When the scheduler is not terminated, a slot is free and the queue is
non-empty, the selection pass starts (first) a pending task that is minimal
for the comparator order: no pending task has a smaller priority, and none
with the same priority has a smaller insertion sequence number. -/
theorem processNext_starts_min {δ ρ ε : Type} [DecidableEq δ] (mc : Nat)
    (s : SchedState δ ρ ε) (hterm : s.terminated = false)
    (hact : s.activeCount < mc) (hq : s.queue ≠ []) :
    ∃ t l, (processNext mc s).started = s.started ++ t :: l ∧ t ∈ s.queue ∧
      ∀ u ∈ s.queue, taskLE t u := by
  have hsq : sortQueue s.queue ≠ [] := by
    unfold sortQueue
    intro hcon
    have := List.length_insertionSort (r := taskLE) s.queue
    rw [hcon] at this
    exact hq (List.length_eq_zero.mp this.symm)
  obtain ⟨t, rest, hts⟩ : ∃ t rest, sortQueue s.queue = t :: rest := by
    cases hc : sortQueue s.queue with
    | nil => exact absurd hc hsq
    | cons t rest => exact ⟨t, rest, rfl⟩
  have hsorted : List.Sorted taskLE (sortQueue s.queue) :=
    List.sorted_insertionSort taskLE s.queue
  have hperm : ∀ u, u ∈ s.queue ↔ u ∈ sortQueue s.queue := fun u =>
    (List.mem_insertionSort taskLE).symm
  have hmin : ∀ u ∈ s.queue, taskLE t u := by
    intro u hu
    have hu₂ : u ∈ t :: rest := by rw [← hts]; exact (hperm u).mp hu
    rcases List.mem_cons.mp hu₂ with h | h
    · rw [h]; exact taskLE_refl t
    · rw [hts] at hsorted
      exact (List.sorted_cons.mp hsorted).1 u h
  have htmem : t ∈ s.queue := by
    rw [hperm, hts]
    exact List.mem_cons_self t rest
  refine ⟨t, ?_⟩
  unfold processNext
  cases hf : s.queue.length with
  | zero => exact absurd (List.length_eq_zero.mp hf) hq
  | succ n =>
      rw [processNextAux_start_succ mc n s hterm hact t rest hts]
      split
      · obtain ⟨l, hl⟩ := processNextAux_started mc n
          { s with
            queue := rest
            activeCount := s.activeCount + 1
            running := s.running ++ [t]
            started := s.started ++ [t] }
        refine ⟨l, ?_, htmem, hmin⟩
        rw [hl]
        simp
      · exact ⟨[], by simp, htmem, hmin⟩

/-! ### Scheduler claim theorems -/

/-- One scheduler step never pushes activeCount above the concurrency
limit. -/
theorem schedStep_active_le {δ ρ ε : Type} [DecidableEq δ] (mc : Nat)
    (s : SchedState δ ρ ε) (e : SchedEvent δ ρ ε) (h : s.activeCount ≤ mc) :
    (schedStep mc s e).activeCount ≤ mc := by
  cases e with
  | runEv d p =>
      simp only [schedStep]
      unfold runTask
      split
      · exact h
      · exact h
  | micro =>
      simp only [schedStep]
      unfold processNext
      exact processNextAux_active_le mc _ _ h
  | completeEv t out =>
      simp only [schedStep]
      split
      · cases out with
        | ok v =>
            unfold completeTask processNext
            exact processNextAux_active_le mc _ _ (le_trans (Nat.sub_le _ _) h)
        | error e₂ =>
            unfold completeTask processNext
            exact processNextAux_active_le mc _ _ (le_trans (Nat.sub_le _ _) h)
      · exact h
  | clearEv =>
      simp only [schedStep]
      exact h
  | terminateEv =>
      simp only [schedStep]
      exact h

/-- The concurrency bound holds along any event trace. -/
theorem schedRun_active_le {δ ρ ε : Type} [DecidableEq δ] (mc : Nat)
    (events : List (SchedEvent δ ρ ε)) (s : SchedState δ ρ ε)
    (h : s.activeCount ≤ mc) : (schedRun mc events s).activeCount ≤ mc := by
  induction events generalizing s with
  | nil => exact h
  | cons e rest ih => exact ih _ (schedStep_active_le mc s e h)

/-- C3 amended: at every instant of every event trace, the number of actively
running tasks is bounded by the effective concurrency limit computed by the
hook, which is 1 in sequential mode and max(1, concurrency) in parallel mode —
the code clamps the configured value from below at 1, so for any configured
concurrency of at least 1 (in particular the default 4) the bound is exactly
the configured value. -/
theorem activeCount_bounded (δ ρ ε : Type) [DecidableEq δ] (mode : WorkerMode)
    (concurrency : Nat) (events : List (SchedEvent δ ρ ε)) :
    (schedRun (maxConcurrentOf mode concurrency) events initSched).activeCount ≤
      maxConcurrentOf mode concurrency ∧
    maxConcurrentOf .sequential concurrency = 1 ∧
    maxConcurrentOf .parallel concurrency = max 1 concurrency := by
  refine ⟨?_, rfl, rfl⟩
  exact schedRun_active_le _ events initSched (Nat.zero_le _)

/-- Counterexample to C3 as stated: with parallel mode and a configured
concurrency of 0, the claimed bound would be 0, but the code clamps the limit
to max(1, 0) = 1 and a trace submitting one task reaches an activeCount of 1,
exceeding the configured concurrency value. -/
theorem activeCount_concurrency_zero_counterexample :
    maxConcurrentOf .parallel 0 = 1 ∧
    (schedRun (δ := Nat) (ρ := Nat) (ε := Nat) (maxConcurrentOf .parallel 0)
      [.runEv 0 none, .micro] initSched).activeCount = 1 ∧
    ¬ (schedRun (δ := Nat) (ρ := Nat) (ε := Nat) (maxConcurrentOf .parallel 0)
      [.runEv 0 none, .micro] initSched).activeCount ≤ 0 := by
  refine ⟨rfl, by decide, by decide⟩

/-- C2: whenever the selection pass of processNext starts a task, the first
task it starts is a pending task minimal in the comparator order — smallest
priority value, ties broken by smallest insertion sequence number. In
consequence (concrete conjuncts, sequential mode): three tasks submitted with
priorities [2,1,3] (payloads 10,20,30, insertion sequences 1,2,3) start in
priority order — payload 20 (priority 1), then 10 (priority 2), then 30
(priority 3) — and three equal-priority tasks start in submission order
(strict FIFO). -/
theorem scheduler_priority_order :
    (∀ (δ ρ ε : Type) [DecidableEq δ] (mc : Nat) (s : SchedState δ ρ ε),
      s.terminated = false → s.activeCount < mc → s.queue ≠ [] →
      ∃ t l, (processNext mc s).started = s.started ++ t :: l ∧ t ∈ s.queue ∧
        ∀ u ∈ s.queue, taskLE t u) ∧
    (schedRun (δ := Nat) (ρ := Nat) (ε := Nat) 1
      [.runEv 10 (some 2), .runEv 20 (some 1), .runEv 30 (some 3),
       .micro, .micro, .micro,
       .completeEv ⟨20, 1, 2⟩ (.ok 0), .completeEv ⟨10, 2, 1⟩ (.ok 0),
       .completeEv ⟨30, 3, 3⟩ (.ok 0)] initSched).started =
      [⟨20, 1, 2⟩, ⟨10, 2, 1⟩, ⟨30, 3, 3⟩] ∧
    (schedRun (δ := Nat) (ρ := Nat) (ε := Nat) 1
      [.runEv 10 (some 5), .runEv 20 (some 5), .runEv 30 (some 5),
       .micro, .micro, .micro,
       .completeEv ⟨10, 5, 1⟩ (.ok 0), .completeEv ⟨20, 5, 2⟩ (.ok 0),
       .completeEv ⟨30, 5, 3⟩ (.ok 0)] initSched).started =
      [⟨10, 5, 1⟩, ⟨20, 5, 2⟩, ⟨30, 5, 3⟩] := by
  refine ⟨?_, by decide, by decide⟩
  intro δ ρ ε _ mc s h₁ h₂ h₃
  exact processNext_starts_min mc s h₁ h₂ h₃

/-- Witness for the general conjunct of C2: in a concrete state with pending
tasks of priorities 2 and 1, the selection pass starts a minimal task. -/
theorem scheduler_priority_order_witness :
    ∃ t l,
      (processNext (δ := Nat) (ρ := Nat) (ε := Nat) 1
        ⟨[⟨10, 2, 1⟩, ⟨20, 1, 2⟩], 2, 0, false, none, none, [], [], []⟩).started =
        ([] : List (Task Nat)) ++ t :: l ∧
      t ∈ [⟨10, 2, 1⟩, (⟨20, 1, 2⟩ : Task Nat)] ∧
      ∀ u ∈ [⟨10, 2, 1⟩, (⟨20, 1, 2⟩ : Task Nat)], taskLE t u :=
  scheduler_priority_order.1 Nat Nat Nat 1
    ⟨[⟨10, 2, 1⟩, ⟨20, 1, 2⟩], 2, 0, false, none, none, [], [], []⟩
    rfl (by decide) (by decide)

/-- C7: terminate sets the one-way terminated flag and clears the queue —
every pending task is rejected with the distinct cleared reason; afterwards
any run call rejects immediately with the distinct terminated reason, no
event ever starts another task (and the flag never resets), while a task
already running still settles normally with its own outcome. -/
theorem terminate_spec {δ ρ ε : Type} [DecidableEq δ] (mc : Nat)
    (s : SchedState δ ρ ε) (d : δ) (p : Option Int) (t : Task δ) (v : ρ) (er : ε) :
    (terminateOp s).terminated = true ∧
    (terminateOp s).queue = [] ∧
    (terminateOp s).settled =
      s.settled ++ s.queue.map (fun u => (u.sequence, TaskOutcome.cleared)) ∧
    (s.terminated = true → runTask d p s = (.rejectedTerminated, s)) ∧
    (s.terminated = true → ∀ e : SchedEvent δ ρ ε,
      (schedStep mc s e).started = s.started ∧
      (schedStep mc s e).terminated = true) ∧
    (s.terminated = true →
      (completeTask mc t (.ok v) s).settled =
        s.settled ++ [(t.sequence, .value v)] ∧
      (completeTask mc t (.error er) s).settled =
        s.settled ++ [(t.sequence, .failed er)]) := by
  refine ⟨rfl, rfl, rfl, ?_, ?_, ?_⟩
  · intro hterm
    unfold runTask
    rw [if_pos hterm]
  · intro hterm e
    cases e with
    | runEv d₂ p₂ =>
        simp only [schedStep]
        unfold runTask
        rw [if_pos hterm]
        exact ⟨rfl, hterm⟩
    | micro =>
        simp only [schedStep]
        unfold processNext
        rw [processNextAux_terminated mc _ s hterm]
        exact ⟨rfl, hterm⟩
    | completeEv t₂ out =>
        simp only [schedStep]
        split
        · cases out with
          | ok v₂ =>
              unfold completeTask processNext
              rw [processNextAux_terminated mc _ _ (by exact hterm)]
              exact ⟨rfl, hterm⟩
          | error e₂ =>
              unfold completeTask processNext
              rw [processNextAux_terminated mc _ _ (by exact hterm)]
              exact ⟨rfl, hterm⟩
        · exact ⟨rfl, hterm⟩
    | clearEv =>
        simp only [schedStep]
        exact ⟨rfl, hterm⟩
    | terminateEv =>
        simp only [schedStep]
        exact ⟨rfl, rfl⟩
  · intro _
    constructor
    · unfold completeTask processNext
      rw [(processNextAux_preserves mc _ _).2.2.2.1]
    · unfold completeTask processNext
      rw [(processNextAux_preserves mc _ _).2.2.2.1]

/-- Witness for C7 at a concrete terminated state with one pending and one
running task. -/
theorem terminate_spec_witness :
    (let s : SchedState Nat Nat Nat :=
      ⟨[⟨7, 1, 2⟩], 2, 1, true, none, none, [⟨5, 1, 1⟩], [⟨5, 1, 1⟩], []⟩
     (terminateOp s).terminated = true ∧
     (terminateOp s).queue = [] ∧
     (terminateOp s).settled = [(2, TaskOutcome.cleared)] ∧
     runTask 9 none s = (.rejectedTerminated, s) ∧
     (completeTask 1 ⟨5, 1, 1⟩ (.ok 42) s).settled = [(1, .value 42)]) := by
  have h := terminate_spec (δ := Nat) (ρ := Nat) (ε := Nat) 1
    ⟨[⟨7, 1, 2⟩], 2, 1, true, none, none, [⟨5, 1, 1⟩], [⟨5, 1, 1⟩], []⟩
    9 none ⟨5, 1, 1⟩ 42 0
  exact ⟨h.1, h.2.1, h.2.2.1, h.2.2.2.1 rfl, (h.2.2.2.2.2 rfl).1⟩

/-- Counterexample to C8 as stated: nothing restricts a caller-supplied
priority to be at least the default 1, so a later-submitted task with
priority 0 is selected before an earlier task submitted with the default
priority — after submitting payload 10 with no priority option (priority 1,
sequence 1) and payload 20 with priority 0 (sequence 2), the selection pass
starts the later task while the default-priority task is still pending. -/
theorem default_priority_counterexample :
    (schedRun (δ := Nat) (ρ := Nat) (ε := Nat) 1
      [.runEv 10 none, .runEv 20 (some 0), .micro] initSched).started =
      [⟨20, 0, 2⟩] ∧
    ⟨10, DEFAULT_PRIORITY, 1⟩ ∈
      (schedRun (δ := Nat) (ρ := Nat) (ε := Nat) 1
        [.runEv 10 none, .runEv 20 (some 0), .micro] initSched).queue := by
  refine ⟨by decide, by decide⟩

/-- C8 amended: run without a priority option assigns DEFAULT_PRIORITY = 1,
the most-urgent value of the documented priority range (1 = highest, larger =
lower urgency); among tasks whose priorities respect that range, a
default-priority task is never out-prioritized by a later-submitted task —
whenever both are pending, the selection pass does not start the later task
first. A later task with priority below 1 (e.g. 0), outside the documented
range, can still out-prioritize it. -/
theorem default_priority_spec :
    DEFAULT_PRIORITY = 1 ∧
    (∀ (δ ρ ε : Type) [DecidableEq δ] (mc : Nat) (s : SchedState δ ρ ε)
      (d t : Task δ),
      s.terminated = false → s.activeCount < mc → d ∈ s.queue → t ∈ s.queue →
      d.priority = DEFAULT_PRIORITY → DEFAULT_PRIORITY ≤ t.priority →
      d.sequence < t.sequence →
      ∃ u l, (processNext mc s).started = s.started ++ u :: l ∧ u ≠ t) := by
  refine ⟨rfl, ?_⟩
  intro δ ρ ε _ mc s d t hterm hact hd ht hdp htp hseq
  obtain ⟨u, l, hst, hu, hmin⟩ := processNext_starts_min mc s hterm hact
    (by intro hc; rw [hc] at hd; cases hd)
  refine ⟨u, l, hst, ?_⟩
  intro hut
  subst hut
  have hle := hmin d hd
  unfold DEFAULT_PRIORITY at hdp htp
  rcases hle with hlt | ⟨heq, hsle⟩
  · omega
  · omega

/-- Witness for C8 amended: with a default-priority task of sequence 1 and a
later priority-2 task pending, the selection pass does not start the later
task first. -/
theorem default_priority_spec_witness :
    ∃ u l,
      (processNext (δ := Nat) (ρ := Nat) (ε := Nat) 1
        ⟨[⟨10, 1, 1⟩, ⟨20, 2, 2⟩], 2, 0, false, none, none, [], [], []⟩).started =
        ([] : List (Task Nat)) ++ u :: l ∧ u ≠ ⟨20, 2, 2⟩ :=
  default_priority_spec.2 Nat Nat Nat 1
    ⟨[⟨10, 1, 1⟩, ⟨20, 2, 2⟩], 2, 0, false, none, none, [], [], []⟩
    ⟨10, 1, 1⟩ ⟨20, 2, 2⟩ rfl (by decide) (by decide) (by decide) rfl
    (by decide) (by decide)

/-- C10: when a running task completes successfully, the scheduler records
the value as the last result and resets the last-error observable to
undefined (so after a success the error observable only reflects later
failures); when it fails, the error is recorded and the last result is left
unchanged. -/
theorem completeTask_records {δ ρ ε : Type} [DecidableEq δ] (mc : Nat)
    (t : Task δ) (s : SchedState δ ρ ε) (v : ρ) (er : ε) :
    (completeTask mc t (.ok v) s).result = some v ∧
    (completeTask mc t (.ok v) s).error = none ∧
    (completeTask mc t (.error er) s).result = s.result ∧
    (completeTask mc t (.error er) s).error = some er := by
  refine ⟨?_, ?_, ?_, ?_⟩
  · unfold completeTask processNext
    rw [(processNextAux_preserves mc _ _).2.1]
  · unfold completeTask processNext
    rw [(processNextAux_preserves mc _ _).2.2.1]
  · unfold completeTask processNext
    rw [(processNextAux_preserves mc _ _).2.1]
  · unfold completeTask processNext
    rw [(processNextAux_preserves mc _ _).2.2.1]

/-! ## Object store model and table controller operations

The update and bulkInsert operations of the table controller act on a native
IndexedDB object store. The store is modelled with a single (string) key
path, in-line keys, and an optional auto-increment key generator, which is
what every store created by this repository's configurations uses. Records
are JavaScript objects embedded as ordered association lists; the engine
stores records by key, and only key lookup and record count are needed by
the claims, so the data is an association list in insertion order. -/

/-- JavaScript primitive values used for record fields and IndexedDB keys. -/
inductive JsVal where
  | num (n : Int)
  | str (s : String)
  deriving DecidableEq, Repr

/-- A record: a JavaScript object as an ordered association list from field
name to value. -/
abbrev JsRec := List (String × JsVal)

/-- The spread expression of the update operation,
merged = { ...existing, ...updates }: fields of existing in order with
values overridden by updates where present, followed by the fields only in
updates. This is a shallow merge. -/
def mergeRecords (existing updates : JsRec) : JsRec :=
  existing.map (fun p =>
    match lookupStr updates p.1 with
    | some v => (p.1, v)
    | none => p) ++
  updates.filter (fun q => (lookupStr existing q.1).isNone)

/-- Assigning a field of a record, as the engine does when it injects a
generated key at the key path. -/
def setField (r : JsRec) (f : String) (v : JsVal) : JsRec :=
  if (lookupStr r f).isSome then
    r.map (fun p => if p.1 = f then (f, v) else p)
  else r ++ [(f, v)]

/-- A native object store with a single-field key path, in-line keys, an
auto-increment flag, the state of the key generator, and the stored records
by key. -/
structure ObjectStore where
  keyPath : String
  autoIncrement : Bool
  nextKey : Int
  data : List (JsVal × JsRec)
  deriving DecidableEq, Repr

/-- Record lookup by key in the store data. -/
def getRec : List (JsVal × JsRec) → JsVal → Option JsRec
  | [], _ => none
  | (k, r) :: rest, key => if k = key then some r else getRec rest key

/-- Replacement of the record at a key (used by put on an existing key). -/
def replaceRec : List (JsVal × JsRec) → JsVal → JsRec → List (JsVal × JsRec)
  | [], _, _ => []
  | (k, r₀) :: rest, key, r =>
      if k = key then (key, r) :: rest else (k, r₀) :: replaceRec rest key r

/-- Errors surfaced by store requests or by the controller itself. -/
inductive DBErr where
  | constraintErr
  | dataErr
  | notFound
  deriving DecidableEq, Repr

/-- Advance of the key generator after storing a record under key k: an
explicit numeric key at or above the generator moves it past that key. -/
def bumpKey (nextKey : Int) (k : JsVal) : Int :=
  match k with
  | .num n => max nextKey (n + 1)
  | .str _ => nextKey

/-- The add request (store.add(record)): extract the key from the record at
the key path — or generate one if absent and the store auto-increments,
injecting it into the stored record — and fail with a constraint error when
a record with that key already exists; this is an add, not an upsert. -/
def addRec (store : ObjectStore) (r : JsRec) : Except DBErr (JsVal × ObjectStore) :=
  match lookupStr r store.keyPath with
  | some k =>
      if (getRec store.data k).isSome then .error .constraintErr
      else
        .ok (k,
          { store with
            data := store.data ++ [(k, r)]
            nextKey := bumpKey store.nextKey k })
  | none =>
      if store.autoIncrement then
        .ok (JsVal.num store.nextKey,
          { store with
            data := store.data ++
              [(JsVal.num store.nextKey, setField r store.keyPath (JsVal.num store.nextKey))]
            nextKey := store.nextKey + 1 })
      else .error .dataErr

/-- The put request (store.put(record)): like add, but an existing record
under the extracted key is replaced instead of failing. -/
def putRec (store : ObjectStore) (r : JsRec) : Except DBErr (JsVal × ObjectStore) :=
  match lookupStr r store.keyPath with
  | some k =>
      if (getRec store.data k).isSome then
        .ok (k,
          { store with
            data := replaceRec store.data k r
            nextKey := bumpKey store.nextKey k })
      else
        .ok (k,
          { store with
            data := store.data ++ [(k, r)]
            nextKey := bumpKey store.nextKey k })
  | none =>
      if store.autoIncrement then
        .ok (JsVal.num store.nextKey,
          { store with
            data := store.data ++
              [(JsVal.num store.nextKey, setField r store.keyPath (JsVal.num store.nextKey))]
            nextKey := store.nextKey + 1 })
      else .error .dataErr

/-- The update operation of the table controller: fetch the existing record
by key; absent, throw the Key-not-found NotFoundError (rejecting the
returned promise before any write happens); present, shallow-merge the
partial record over it and put the merged record, resolving with nothing. -/
def updateRec (store : ObjectStore) (key : JsVal) (updates : JsRec) :
    Except DBErr ObjectStore :=
  match getRec store.data key with
  | none => .error .notFound
  | some existing =>
      (putRec store (mergeRecords existing updates)).map (fun p => p.2)

/-- The bulkInsert operation of the table controller: one add request per
record inside one transaction, in list order; the keys array is filled
positionally by each request's success handler and the promise resolves with
it only after the completion counter reaches the number of items — in the
serialized event order this is the fold below — while the first failing
request rejects the promise with its error. -/
def bulkInsert (store : ObjectStore) (items : List JsRec) :
    Except DBErr (List JsVal × ObjectStore) :=
  match items with
  | [] => .ok ([], store)
  | r :: rest =>
      match addRec store r with
      | .error e => .error e
      | .ok (k, store₂) =>
          match bulkInsert store₂ rest with
          | .error e => .error e
          | .ok (ks, store₃) => .ok (k :: ks, store₃)

/-- Well-formedness of a store: every stored record carries its own key at
the key path (true of every store populated through add and put). -/
def WFStore (store : ObjectStore) : Prop :=
  ∀ p ∈ store.data, lookupStr p.2 store.keyPath = some p.1

/-- Test that a key, when numeric, lies below the generator bound. -/
def keyBelow (k : JsVal) (bound : Int) : Bool :=
  match k with
  | .num n => decide (n < bound)
  | .str _ => true

/-- Generator invariant of a store: every numeric key present is below the
key generator state (true of every store populated through add and put from
an empty store, as the generator is bumped past explicit numeric keys). -/
def genAhead (store : ObjectStore) : Prop :=
  ∀ p ∈ store.data, keyBelow p.1 store.nextKey = true

instance (store : ObjectStore) : Decidable (WFStore store) := by
  unfold WFStore
  infer_instance

instance (store : ObjectStore) : Decidable (genAhead store) := by
  unfold genAhead
  infer_instance

/-! ### Object store lemmas -/

theorem getRec_append_some (l l₂ : List (JsVal × JsRec)) (k : JsVal) (r : JsRec)
    (h : getRec l k = some r) : getRec (l ++ l₂) k = some r := by
  induction l with
  | nil => cases h
  | cons p rest ih =>
      obtain ⟨k₀, r₀⟩ := p
      simp only [List.cons_append, getRec] at h ⊢
      by_cases hk : k₀ = k
      · simpa [hk] using h
      · simp only [hk, if_false] at h ⊢
        exact ih h

theorem getRec_append_none (l l₂ : List (JsVal × JsRec)) (k : JsVal)
    (h : getRec l k = none) : getRec (l ++ l₂) k = getRec l₂ k := by
  induction l with
  | nil => rfl
  | cons p rest ih =>
      obtain ⟨k₀, r₀⟩ := p
      simp only [getRec] at h
      by_cases hk : k₀ = k
      · simp [hk] at h
      · simp only [hk, if_false] at h
        simp only [List.cons_append, getRec, hk, if_false]
        exact ih h

theorem getRec_mem (l : List (JsVal × JsRec)) (k : JsVal) (r : JsRec)
    (h : getRec l k = some r) : (k, r) ∈ l := by
  induction l with
  | nil => cases h
  | cons p rest ih =>
      obtain ⟨k₀, r₀⟩ := p
      simp only [getRec] at h
      by_cases hk : k₀ = k
      · subst hk
        rw [if_pos rfl] at h
        cases h
        exact List.mem_cons_self _ _
      · rw [if_neg hk] at h
        exact List.mem_cons_of_mem _ (ih h)

theorem getRec_none_of_forall (l : List (JsVal × JsRec)) (k : JsVal)
    (h : ∀ p ∈ l, p.1 ≠ k) : getRec l k = none := by
  induction l with
  | nil => rfl
  | cons p rest ih =>
      obtain ⟨k₀, r₀⟩ := p
      simp only [getRec]
      have hk : k₀ ≠ k := h (k₀, r₀) (List.mem_cons_self _ _)
      simp only [hk, if_false]
      exact ih (fun q hq => h q (List.mem_cons_of_mem _ hq))

theorem getRec_replaceRec_self (l : List (JsVal × JsRec)) (k : JsVal) (r : JsRec)
    (h : (getRec l k).isSome) : getRec (replaceRec l k r) k = some r := by
  induction l with
  | nil => simp [getRec] at h
  | cons p rest ih =>
      obtain ⟨k₀, r₀⟩ := p
      simp only [getRec] at h
      by_cases hk : k₀ = k
      · simp [replaceRec, hk, getRec]
      · simp only [hk, if_false] at h
        simp only [replaceRec, hk, if_false, getRec]
        exact ih h

theorem getRec_replaceRec_other (l : List (JsVal × JsRec)) (k : JsVal) (r : JsRec)
    (k₂ : JsVal) (h : k₂ ≠ k) : getRec (replaceRec l k r) k₂ = getRec l k₂ := by
  induction l with
  | nil => rfl
  | cons p rest ih =>
      obtain ⟨k₀, r₀⟩ := p
      by_cases hk : k₀ = k
      · subst hk
        simp only [replaceRec, if_pos rfl, getRec]
        rw [if_neg (fun hc => h hc.symm), if_neg (fun hc => h hc.symm)]
      · simp only [replaceRec, hk, if_false, getRec]
        rw [ih]

theorem length_replaceRec (l : List (JsVal × JsRec)) (k : JsVal) (r : JsRec) :
    (replaceRec l k r).length = l.length := by
  induction l with
  | nil => rfl
  | cons p rest ih =>
      obtain ⟨k₀, r₀⟩ := p
      by_cases hk : k₀ = k
      · simp [replaceRec, hk]
      · simp [replaceRec, hk, ih]

/-- Lookup in the map part of a shallow merge: a field of existing keeps its
key and takes the updates value when updates has one. -/
theorem lookupStr_merge_map (updates : JsRec) :
    ∀ (existing : JsRec) (f : String),
      lookupStr (existing.map (fun p =>
        match lookupStr updates p.1 with
        | some v => (p.1, v)
        | none => p)) f =
      (match lookupStr existing f with
       | some v =>
           match lookupStr updates f with
           | some w => some w
           | none => some v
       | none => none) := by
  intro existing
  induction existing with
  | nil => intro f; rfl
  | cons p rest ih =>
      intro f
      obtain ⟨k, v⟩ := p
      by_cases hk : k = f
      · subst hk
        cases hu : lookupStr updates k with
        | some w => simp [lookupStr, hu]
        | none => simp [lookupStr, hu]
      · cases hu : lookupStr updates k with
        | some w => simp [lookupStr, hu, hk, ih]
        | none => simp [lookupStr, hu, hk, ih]

/-- Lookup in the filter part of a shallow merge: when existing lacks the
field, dropped entries never carry it, so lookup passes through. -/
theorem lookupStr_merge_filter (existing updates : JsRec) (f : String)
    (h : lookupStr existing f = none) :
    lookupStr (updates.filter (fun q => (lookupStr existing q.1).isNone)) f =
      lookupStr updates f := by
  induction updates with
  | nil => rfl
  | cons q rest ih =>
      obtain ⟨g, w⟩ := q
      by_cases hg : g = f
      · subst hg
        simp [List.filter_cons, h, lookupStr]
      · by_cases hp : (lookupStr existing g).isNone
        · simp [List.filter_cons, hp, lookupStr, hg, ih]
        · simp [List.filter_cons, hp, lookupStr, hg, ih]

/-- Field-level characterization of the shallow merge: updates wins on every
field it carries; all other fields keep their existing value. -/
theorem lookupStr_mergeRecords (existing updates : JsRec) (f : String) :
    lookupStr (mergeRecords existing updates) f =
      (match lookupStr updates f with
       | some w => some w
       | none => lookupStr existing f) := by
  unfold mergeRecords
  have hmap := lookupStr_merge_map updates existing f
  cases he : lookupStr existing f with
  | some v =>
      simp only [he] at hmap
      cases hu : lookupStr updates f with
      | some w =>
          simp only [hu] at hmap
          rw [lookupStr_append_left _ _ _ _ hmap]
      | none =>
          simp only [hu] at hmap
          rw [lookupStr_append_left _ _ _ _ hmap]
  | none =>
      simp only [he] at hmap
      rw [lookupStr_append_none _ _ _ hmap, lookupStr_merge_filter existing updates f he]
      cases hu : lookupStr updates f with
      | some w => rfl
      | none => rfl

/-- Decidable equality of request outcomes, for evaluating concrete cases. -/
instance {ε α : Type} [DecidableEq ε] [DecidableEq α] : DecidableEq (Except ε α)
  | .error e, .error e₂ =>
      if h : e = e₂ then .isTrue (by rw [h])
      else .isFalse (by intro hc; cases hc; exact h rfl)
  | .error e, .ok b => .isFalse (by intro hc; cases hc)
  | .ok a, .error e => .isFalse (by intro hc; cases hc)
  | .ok a, .ok b =>
      if h : a = b then .isTrue (by rw [h])
      else .isFalse (by intro hc; cases hc; exact h rfl)

/-! ### Update claim theorems -/

/-- Counterexample to C5 as stated: when the partial record overrides the
key-path field, the merged record is not written back under the original
key. Store with key path id holding one record under key 1; after
update(1, partial with id 2), the record at key 1 is unchanged (not the
merged record) and the merged record was written under the new key 2, so the
table now holds two records. -/
theorem update_key_override_counterexample :
    (let store : ObjectStore :=
      ⟨"id", false, 1, [(.num 1, [("id", .num 1), ("v", .num 10)])]⟩
     let store₂ : ObjectStore :=
      ⟨"id", false, 3,
        [(.num 1, [("id", .num 1), ("v", .num 10)]),
         (.num 2, [("id", .num 2), ("v", .num 10)])]⟩
     updateRec store (.num 1) [("id", .num 2)] = .ok store₂ ∧
     mergeRecords [("id", .num 1), ("v", .num 10)] [("id", .num 2)] =
       [("id", .num 2), ("v", .num 10)] ∧
     getRec store₂.data (.num 1) = some [("id", .num 1), ("v", .num 10)] ∧
     getRec store₂.data (.num 1) ≠
       some (mergeRecords [("id", .num 1), ("v", .num 10)] [("id", .num 2)]) ∧
     getRec store₂.data (.num 2) =
       some (mergeRecords [("id", .num 1), ("v", .num 10)] [("id", .num 2)]) ∧
     store₂.data.length = 2) := by
  decide

/-- C5 amended: update(key, partialRecord) rejects with the Key-not-found
error and leaves the table unchanged (the failure happens before any write
is issued) when no record exists at the key; when a record exists, it
shallow-merges partialRecord over it (updates win field-wise, all other
fields keep their existing value) and, provided partialRecord does not
override the store's key-path field, writes the merged record back under the
original key, leaving every other key and the record count unchanged, and
resolves with nothing. (If partialRecord does override the key-path field,
the merged record is instead written under the overriding key, as the
counterexample shows.) -/
theorem update_spec (store : ObjectStore) (key : JsVal) (updates existing : JsRec)
    (hwf : WFStore store) (hnokey : lookupStr updates store.keyPath = none) :
    (getRec store.data key = none → updateRec store key updates = .error .notFound) ∧
    (getRec store.data key = some existing →
      ∃ store₂, updateRec store key updates = .ok store₂ ∧
        getRec store₂.data key = some (mergeRecords existing updates) ∧
        (∀ k₂, k₂ ≠ key → getRec store₂.data k₂ = getRec store.data k₂) ∧
        store₂.data.length = store.data.length ∧
        (∀ f, lookupStr (mergeRecords existing updates) f =
          (match lookupStr updates f with
           | some w => some w
           | none => lookupStr existing f))) := by
  constructor
  · intro h
    unfold updateRec
    rw [h]
  · intro h
    have hmem := getRec_mem store.data key existing h
    have hkey : lookupStr existing store.keyPath = some key := hwf _ hmem
    have hmergekey : lookupStr (mergeRecords existing updates) store.keyPath = some key := by
      rw [lookupStr_mergeRecords, hnokey]
      exact hkey
    have hsome : (getRec store.data key).isSome = true := by rw [h]; rfl
    have hput : putRec store (mergeRecords existing updates) =
        .ok (key,
          { store with
            data := replaceRec store.data key (mergeRecords existing updates)
            nextKey := bumpKey store.nextKey key }) := by
      unfold putRec
      simp only [hmergekey, hsome, if_true]
    have hupd : updateRec store key updates =
        .ok { store with
          data := replaceRec store.data key (mergeRecords existing updates)
          nextKey := bumpKey store.nextKey key } := by
      unfold updateRec
      simp only [h, hput, Except.map]
    refine ⟨_, hupd, ?_, ?_, ?_, ?_⟩
    · exact getRec_replaceRec_self store.data key _ hsome
    · intro k₂ hk₂
      exact getRec_replaceRec_other store.data key _ k₂ hk₂
    · exact length_replaceRec _ _ _
    · intro f
      exact lookupStr_mergeRecords existing updates f

/-- Witness for C5 amended at a concrete store: updating key 1 with a
partial record that does not touch the key field merges in place. -/
theorem update_spec_witness :
    (let store : ObjectStore :=
      ⟨"id", false, 1, [(.num 1, [("id", .num 1), ("v", .num 10)])]⟩
     getRec store.data (.num 5) = none →
       updateRec store (.num 5) [("v", .num 20)] = .error .notFound) ∧
    (let store : ObjectStore :=
      ⟨"id", false, 1, [(.num 1, [("id", .num 1), ("v", .num 10)])]⟩
     getRec store.data (.num 1) = some [("id", .num 1), ("v", .num 10)] →
      ∃ store₂, updateRec store (.num 1) [("v", .num 20)] = .ok store₂ ∧
        getRec store₂.data (.num 1) =
          some (mergeRecords [("id", .num 1), ("v", .num 10)] [("v", .num 20)]) ∧
        (∀ k₂, k₂ ≠ JsVal.num 1 → getRec store₂.data k₂ = getRec store.data k₂) ∧
        store₂.data.length = store.data.length ∧
        (∀ f, lookupStr (mergeRecords [("id", .num 1), ("v", .num 10)] [("v", .num 20)]) f =
          (match lookupStr [("v", .num 20)] f with
           | some w => some w
           | none => lookupStr [("id", .num 1), ("v", .num 10)] f))) := by
  have h := update_spec ⟨"id", false, 1, [(.num 1, [("id", .num 1), ("v", .num 10)])]⟩
    (.num 1) [("v", .num 20)] [("id", .num 1), ("v", .num 10)] (by decide) (by decide)
  have h₂ := update_spec ⟨"id", false, 1, [(.num 1, [("id", .num 1), ("v", .num 10)])]⟩
    (.num 5) [("v", .num 20)] [("id", .num 1), ("v", .num 10)] (by decide) (by decide)
  exact ⟨fun hn => h₂.1 hn, fun hs => h.2 hs⟩

/-! ### bulkInsert claim theorems -/

theorem keyBelow_mono (k : JsVal) (b b₂ : Int) (hb : b ≤ b₂)
    (h : keyBelow k b = true) : keyBelow k b₂ = true := by
  cases k with
  | num n =>
      simp only [keyBelow, decide_eq_true_eq] at h ⊢
      omega
  | str s => rfl

theorem le_bumpKey (nextKey : Int) (k : JsVal) : nextKey ≤ bumpKey nextKey k := by
  cases k with
  | num n => exact le_max_left _ _
  | str s => exact le_refl _

/-- Every fact about a successful add request needed below: it preserves the
key path, grows the data by exactly one record, the assigned key now
identifies a record, previously stored records are untouched, the generator
invariant is maintained, and a record carrying an explicit key is stored
under exactly that key. -/
theorem addRec_ok_facts (store : ObjectStore) (r : JsRec) (k : JsVal)
    (store₂ : ObjectStore) (hgen : genAhead store)
    (h : addRec store r = .ok (k, store₂)) :
    store₂.keyPath = store.keyPath ∧
    store₂.data.length = store.data.length + 1 ∧
    (getRec store₂.data k).isSome = true ∧
    (∀ k₂ r₂, getRec store.data k₂ = some r₂ → getRec store₂.data k₂ = some r₂) ∧
    genAhead store₂ ∧
    (∀ v, lookupStr r store.keyPath = some v → k = v) := by
  unfold addRec at h
  cases hlk : lookupStr r store.keyPath with
  | some v =>
      simp only [hlk] at h
      by_cases hex : (getRec store.data v).isSome = true
      · rw [if_pos hex] at h
        cases h
      · rw [if_neg hex] at h
        simp only [Except.ok.injEq, Prod.mk.injEq] at h
        obtain ⟨hk, hst⟩ := h
        subst hk
        subst hst
        have habs : getRec store.data v = none := by
          cases hg : getRec store.data v with
          | none => rfl
          | some r₂ => rw [hg] at hex; exact absurd rfl hex
        refine ⟨rfl, by simp, ?_, ?_, ?_, ?_⟩
        · rw [getRec_append_none _ _ _ habs]
          simp [getRec]
        · intro k₂ r₂ hg
          exact getRec_append_some _ _ _ _ hg
        · intro p hp
          simp only [List.mem_append, List.mem_singleton] at hp
          rcases hp with hp | hp
          · exact keyBelow_mono _ _ _ (le_bumpKey _ _) (hgen p hp)
          · subst hp
            cases v with
            | num n =>
                simp only [keyBelow, bumpKey, decide_eq_true_eq]
                exact lt_of_lt_of_le (by omega) (le_max_right _ _)
            | str s => rfl
        · intro v₂ hv₂
          exact Option.some_inj.mp hv₂
  | none =>
      simp only [hlk] at h
      by_cases hai : store.autoIncrement = true
      · rw [if_pos hai] at h
        simp only [Except.ok.injEq, Prod.mk.injEq] at h
        obtain ⟨hk, hst⟩ := h
        subst hk
        subst hst
        have habs : getRec store.data (JsVal.num store.nextKey) = none := by
          apply getRec_none_of_forall
          intro p hp hc
          have hlt := hgen p hp
          rw [hc] at hlt
          simp only [keyBelow, decide_eq_true_eq] at hlt
          omega
        refine ⟨rfl, by simp, ?_, ?_, ?_, ?_⟩
        · rw [getRec_append_none _ _ _ habs]
          simp [getRec]
        · intro k₂ r₂ hg
          exact getRec_append_some _ _ _ _ hg
        · intro p hp
          simp only [List.mem_append, List.mem_singleton] at hp
          rcases hp with hp | hp
          · exact keyBelow_mono p.1 store.nextKey (store.nextKey + 1) (by omega) (hgen p hp)
          · subst hp
            show keyBelow (JsVal.num store.nextKey) (store.nextKey + 1) = true
            simp only [keyBelow, decide_eq_true_eq]
            omega
        · intro v₂ hv₂
          cases hv₂
      · rw [if_neg hai] at h
        cases h

/-- Inductive backbone for C6: facts holding of every successful bulkInsert
run. -/
theorem bulkInsert_ok_facts :
    ∀ (items : List JsRec) (store : ObjectStore) (keys : List JsVal)
      (store₂ : ObjectStore), genAhead store →
      bulkInsert store items = .ok (keys, store₂) →
      keys.length = items.length ∧
      store₂.data.length = store.data.length + items.length ∧
      (∀ k₂ r₂, getRec store.data k₂ = some r₂ → getRec store₂.data k₂ = some r₂) ∧
      (∀ i (hi : i < keys.length), (getRec store₂.data (keys.get ⟨i, hi⟩)).isSome = true) ∧
      (∀ i (hi : i < items.length) (hk : i < keys.length) (v : JsVal),
        lookupStr (items.get ⟨i, hi⟩) store.keyPath = some v →
        keys.get ⟨i, hk⟩ = v) := by
  intro items
  induction items with
  | nil =>
      intro store keys store₂ hgen h
      unfold bulkInsert at h
      simp only [Except.ok.injEq, Prod.mk.injEq] at h
      obtain ⟨hk, hs⟩ := h
      subst hk
      subst hs
      refine ⟨rfl, rfl, fun k₂ r₂ hg => hg, ?_, ?_⟩
      · intro i hi
        exact absurd hi (Nat.not_lt_zero i)
      · intro i hi
        exact absurd hi (Nat.not_lt_zero i)
  | cons r rest ih =>
      intro store keys store₂ hgen h
      unfold bulkInsert at h
      cases ha : addRec store r with
      | error e =>
          simp only [ha] at h
          cases h
      | ok p =>
          obtain ⟨k, s₁⟩ := p
          simp only [ha] at h
          cases hb : bulkInsert s₁ rest with
          | error e =>
              simp only [hb] at h
              cases h
          | ok q =>
              obtain ⟨ks, s₃⟩ := q
              simp only [hb, Except.ok.injEq, Prod.mk.injEq] at h
              obtain ⟨hk, hs⟩ := h
              subst hk
              subst hs
              obtain ⟨hkp, hlen1, hsome1, hpres1, hgen1, hexp1⟩ :=
                addRec_ok_facts store r k s₁ hgen ha
              obtain ⟨ihlen, ihcount, ihpres, ihsome, ihexp⟩ := ih s₁ ks s₃ hgen1 hb
              refine ⟨by simp [ihlen], ?_, ?_, ?_, ?_⟩
              · rw [ihcount, hlen1]
                simp only [List.length_cons]
                omega
              · intro k₂ r₂ hg
                exact ihpres k₂ r₂ (hpres1 k₂ r₂ hg)
              · intro i hi
                cases i with
                | zero =>
                    obtain ⟨r₁, hr₁⟩ := Option.isSome_iff_exists.mp hsome1
                    show (getRec s₃.data k).isSome = true
                    rw [ihpres k r₁ hr₁]
                    rfl
                | succ j =>
                    exact ihsome j (by simpa using hi)
              · intro i hi hk₂ v hv
                cases i with
                | zero => exact hexp1 v hv
                | succ j =>
                    refine ihexp j (by simpa using hi) (by simpa using hk₂) v ?_
                    rw [hkp]
                    exact hv

/-- C6: a successful bulkInsert resolves with exactly one key per input
record (positionally: a record carrying an explicit key resolves to that key
at its own position), every resolved key identifies a stored record, and the
record count grows by exactly the number of inputs; resolution happens only
after every individual add has succeeded (the fold reaches the end of the
list), while the first failing add — wherever it sits in the list — rejects
the whole operation with that request's error. -/
theorem bulkInsert_spec :
    (∀ (store : ObjectStore) (items : List JsRec) (keys : List JsVal)
      (store₂ : ObjectStore), genAhead store →
      bulkInsert store items = .ok (keys, store₂) →
      keys.length = items.length ∧
      store₂.data.length = store.data.length + items.length ∧
      (∀ i (hi : i < keys.length), (getRec store₂.data (keys.get ⟨i, hi⟩)).isSome = true) ∧
      (∀ i (hi : i < items.length) (hk : i < keys.length) (v : JsVal),
        lookupStr (items.get ⟨i, hi⟩) store.keyPath = some v →
        keys.get ⟨i, hk⟩ = v)) ∧
    (∀ (store : ObjectStore) (r : JsRec) (rest : List JsRec) (e : DBErr),
      addRec store r = .error e → bulkInsert store (r :: rest) = .error e) ∧
    (∀ (store : ObjectStore) (r : JsRec) (rest : List JsRec) (k : JsVal)
      (s₁ : ObjectStore) (e : DBErr),
      addRec store r = .ok (k, s₁) → bulkInsert s₁ rest = .error e →
      bulkInsert store (r :: rest) = .error e) := by
  refine ⟨?_, ?_, ?_⟩
  · intro store items keys store₂ hgen h
    obtain ⟨h₁, h₂, _, h₄, h₅⟩ := bulkInsert_ok_facts items store keys store₂ hgen h
    exact ⟨h₁, h₂, h₄, h₅⟩
  · intro store r rest e ha
    unfold bulkInsert
    simp only [ha]
  · intro store r rest k s₁ e ha hb
    unfold bulkInsert
    simp only [ha, hb]

/-- Witness for C6 at a concrete store with two explicit-key records, the
shape of the Bulk-insert testable property: two keys, positionally matching,
count up by two. -/
theorem bulkInsert_spec_witness :
    (let store : ObjectStore := ⟨"key", false, 1, []⟩
     let item₁ : JsRec := [("key", .str "a"), ("value", .num 1)]
     let item₂ : JsRec := [("key", .str "b"), ("value", .num 2)]
     let store₂ : ObjectStore :=
       ⟨"key", false, 1, [(.str "a", item₁), (.str "b", item₂)]⟩
     ([JsVal.str "a", JsVal.str "b"].length = [item₁, item₂].length ∧
      store₂.data.length = store.data.length + [item₁, item₂].length ∧
      (∀ i (hi : i < [JsVal.str "a", JsVal.str "b"].length),
        (getRec store₂.data ([JsVal.str "a", JsVal.str "b"].get ⟨i, hi⟩)).isSome = true) ∧
      (∀ i (hi : i < [item₁, item₂].length)
        (hk : i < [JsVal.str "a", JsVal.str "b"].length) (v : JsVal),
        lookupStr ([item₁, item₂].get ⟨i, hi⟩) store.keyPath = some v →
        [JsVal.str "a", JsVal.str "b"].get ⟨i, hk⟩ = v)) ∧
     bulkInsert store [item₁, item₂] = .ok ([JsVal.str "a", JsVal.str "b"], store₂)) := by
  refine ⟨?_, by decide⟩
  exact bulkInsert_spec.1 ⟨"key", false, 1, []⟩
    [[("key", .str "a"), ("value", .num 1)], [("key", .str "b"), ("value", .num 2)]]
    [JsVal.str "a", JsVal.str "b"]
    ⟨"key", false, 1,
      [(.str "a", [("key", .str "a"), ("value", .num 1)]),
       (.str "b", [("key", .str "b"), ("value", .num 2)])]⟩
    (by decide) (by decide)

/-! ### Additional concrete witnesses -/

/-- Witness for C3 amended at concrete inputs: a sequential trace with two
submissions stays within the limit 1, and the parallel default limit is 4. -/
theorem activeCount_bounded_witness :
    (schedRun (maxConcurrentOf .sequential 4)
      [.runEv 1 none, .runEv 2 none, .micro, .micro]
      (initSched (δ := Nat) (ρ := Nat) (ε := Nat))).activeCount ≤
      maxConcurrentOf .sequential 4 ∧
    maxConcurrentOf .sequential 4 = 1 ∧
    maxConcurrentOf .parallel 4 = max 1 4 :=
  activeCount_bounded Nat Nat Nat .sequential 4
    [.runEv 1 none, .runEv 2 none, .micro, .micro]

/-- Witness for C9 amended at concrete outcomes over Nat error codes. -/
theorem transactionRun_error_propagation_witness :
    transactionRun (ε := Nat) (.ret (.error 7)) (.ok ()) = .ok (.error 7) ∧
    transactionRun (ε := Nat) (.ret (.ok ())) (.ok ()) = .ok (.ok ()) ∧
    transactionRun (ε := Nat) (.syncThrow 7) (.ok ()) = .error 7 :=
  transactionRun_error_propagation 7 (.ok ())

/-- Witness for C10 at a concrete state: success overwrites result and
clears the error; failure records the error and keeps result at some 9. -/
theorem completeTask_records_witness :
    (completeTask (δ := Nat) (ρ := Nat) (ε := Nat) 1 ⟨1, 1, 1⟩ (.ok 5)
      ⟨[], 1, 1, false, some 9, some 3, [⟨1, 1, 1⟩], [⟨1, 1, 1⟩], []⟩).result = some 5 ∧
    (completeTask (δ := Nat) (ρ := Nat) (ε := Nat) 1 ⟨1, 1, 1⟩ (.ok 5)
      ⟨[], 1, 1, false, some 9, some 3, [⟨1, 1, 1⟩], [⟨1, 1, 1⟩], []⟩).error = none ∧
    (completeTask (δ := Nat) (ρ := Nat) (ε := Nat) 1 ⟨1, 1, 1⟩ (.error 4)
      ⟨[], 1, 1, false, some 9, some 3, [⟨1, 1, 1⟩], [⟨1, 1, 1⟩], []⟩).result = some 9 ∧
    (completeTask (δ := Nat) (ρ := Nat) (ε := Nat) 1 ⟨1, 1, 1⟩ (.error 4)
      ⟨[], 1, 1, false, some 9, some 3, [⟨1, 1, 1⟩], [⟨1, 1, 1⟩], []⟩).error = some 4 :=
  completeTask_records 1 ⟨1, 1, 1⟩
    ⟨[], 1, 1, false, some 9, some 3, [⟨1, 1, 1⟩], [⟨1, 1, 1⟩], []⟩ 5 4

end Spec2Proof
